import Mathlib

/-!
Shallow embedding of the bk terminal e-book reader (src/main.rs, src/view.rs,
src/epub.rs) and proofs about it.  Rust strings are modelled as lists of
unicode scalar values (`List Char`); all indices are byte offsets, computed
with `Char.utf8Size`, exactly as `str::char_indices` and `str::len` do.
-/

namespace BK

/-- Three-way comparison on `Nat`, mirroring Rust's `usize::cmp`. -/
def natCmp (a b : Nat) : Ordering :=
  if a < b then .lt else if b < a then .gt else .eq

theorem natCmp_eq_iff {a b : Nat} : natCmp a b = .eq ↔ a = b := by
  unfold natCmp; split_ifs <;> simp <;> omega

theorem natCmp_lt_iff {a b : Nat} : natCmp a b = .lt ↔ a < b := by
  unfold natCmp; split_ifs <;> simp <;> omega

theorem natCmp_gt_iff {a b : Nat} : natCmp a b = .gt ↔ b < a := by
  unfold natCmp; split_ifs <;> simp <;> omega

/-- Numeric rank of an `Ordering`, used to state comparator monotonicity. -/
def ordRank : Ordering → Nat
  | .lt => 0
  | .eq => 1
  | .gt => 2

theorem ordRank_eq_zero {o : Ordering} (h : ordRank o = 0) : o = .lt := by
  cases o <;> simp [ordRank] at h ⊢

theorem ordRank_eq_two {o : Ordering} (h : 2 ≤ ordRank o) : o = .gt := by
  cases o <;> simp [ordRank] at h ⊢

/-- Core loop of Rust `slice::binary_search_by`: maintain a window
`[lo, hi)`, probe `mid = lo + (hi - lo) / 2`, narrow on `Less`/`Greater`,
return `Ok(mid)` on `Equal`, and `Err(lo)` (insertion point) when the
window empties.  The fuel argument makes the recursion structural; with
fuel at least `hi - lo` it never runs out. -/
def bsGo (g : Nat → Ordering) : Nat → Nat → Nat → Except Nat Nat
  | 0, lo, _ => .error lo
  | fuel + 1, lo, hi =>
    if lo < hi then
      match g (lo + (hi - lo) / 2) with
      | .lt => bsGo g fuel (lo + (hi - lo) / 2 + 1) hi
      | .gt => bsGo g fuel lo (lo + (hi - lo) / 2)
      | .eq => .ok (lo + (hi - lo) / 2)
    else .error lo

/-- Rust `binary_search_by` over indices `[lo, hi)` with comparator `g`. -/
def bsearch (g : Nat → Ordering) (lo hi : Nat) : Except Nat Nat :=
  bsGo g (hi - lo) lo hi

/-- Full characterization of the binary-search loop for a comparator that is
monotone (in `ordRank`) on the window: it either returns `Ok m` with
`g m = .eq`, or `Err p` where `p` splits the window into a `.lt` prefix and
a `.gt` suffix. -/
theorem bsGo_spec (g : Nat → Ordering) :
    ∀ fuel lo hi, lo ≤ hi → hi - lo ≤ fuel →
    (∀ i j, lo ≤ i → i ≤ j → j < hi → ordRank (g i) ≤ ordRank (g j)) →
    (∃ m, bsGo g fuel lo hi = .ok m ∧ lo ≤ m ∧ m < hi ∧ g m = .eq) ∨
    (∃ p, bsGo g fuel lo hi = .error p ∧ lo ≤ p ∧ p ≤ hi ∧
      (∀ j, lo ≤ j → j < hi → (j < p → g j = .lt) ∧ (p ≤ j → g j = .gt))) := by
  intro fuel
  induction fuel with
  | zero =>
    intro lo hi hlh hf _
    exact Or.inr ⟨lo, rfl, Nat.le_refl lo, hlh, fun j h1 h2 => by omega⟩
  | succ fuel ih =>
    intro lo hi hlh hf hmono
    by_cases hlt : lo < hi
    · have hmid1 : lo ≤ lo + (hi - lo) / 2 := by omega
      have hmid2 : lo + (hi - lo) / 2 < hi := by omega
      cases hg : g (lo + (hi - lo) / 2) with
      | eq =>
        refine Or.inl ⟨lo + (hi - lo) / 2, ?_, hmid1, hmid2, hg⟩
        simp [bsGo, hlt, hg]
      | lt =>
        have hrun : bsGo g (fuel + 1) lo hi =
            bsGo g fuel (lo + (hi - lo) / 2 + 1) hi := by
          simp [bsGo, hlt, hg]
        have hrec := ih (lo + (hi - lo) / 2 + 1) hi (by omega) (by omega)
          (fun i j h1 h2 h3 => hmono i j (by omega) h2 h3)
        rcases hrec with ⟨m, hm, hm1, hm2, hm3⟩ | ⟨p, hp, hp1, hp2, hp3⟩
        · exact Or.inl ⟨m, by rw [hrun]; exact hm, by omega, hm2, hm3⟩
        · refine Or.inr ⟨p, by rw [hrun]; exact hp, by omega, hp2, ?_⟩
          intro j hj1 hj2
          constructor
          · intro hjp
            by_cases hjm : lo + (hi - lo) / 2 + 1 ≤ j
            · exact (hp3 j hjm hj2).1 hjp
            · have hr : ordRank (g j) ≤ ordRank (g (lo + (hi - lo) / 2)) :=
                hmono j (lo + (hi - lo) / 2) hj1 (by omega) hmid2
              rw [hg] at hr
              exact ordRank_eq_zero (by simpa [ordRank] using hr)
          · intro hpj
            exact (hp3 j (by omega) hj2).2 hpj
      | gt =>
        have hrun : bsGo g (fuel + 1) lo hi =
            bsGo g fuel lo (lo + (hi - lo) / 2) := by
          simp [bsGo, hlt, hg]
        have hrec := ih lo (lo + (hi - lo) / 2) (by omega) (by omega)
          (fun i j h1 h2 h3 => hmono i j h1 h2 (by omega))
        rcases hrec with ⟨m, hm, hm1, hm2, hm3⟩ | ⟨p, hp, hp1, hp2, hp3⟩
        · exact Or.inl ⟨m, by rw [hrun]; exact hm, hm1, by omega, hm3⟩
        · refine Or.inr ⟨p, by rw [hrun]; exact hp, hp1, by omega, ?_⟩
          intro j hj1 hj2
          constructor
          · intro hjp
            exact (hp3 j hj1 (by omega)).1 hjp
          · intro hpj
            by_cases hjm : j < lo + (hi - lo) / 2
            · exact (hp3 j hj1 hjm).2 hpj
            · have hr : ordRank (g (lo + (hi - lo) / 2)) ≤ ordRank (g j) :=
                hmono (lo + (hi - lo) / 2) j hmid1 (by omega) hj2
              rw [hg] at hr
              exact ordRank_eq_two (by simpa [ordRank] using hr)
    · refine Or.inr ⟨lo, ?_, Nat.le_refl lo, hlh, fun j h1 h2 => by omega⟩
      simp [bsGo, hlt]

/-- If the monotone comparator is `.eq` somewhere in the window, the search
returns `Ok` at an index where it is `.eq`. -/
theorem bsearch_found (g : Nat → Ordering) (lo hi : Nat) (hlh : lo ≤ hi)
    (hmono : ∀ i j, lo ≤ i → i ≤ j → j < hi → ordRank (g i) ≤ ordRank (g j))
    (i : Nat) (h1 : lo ≤ i) (h2 : i < hi) (heq : g i = .eq) :
    ∃ m, bsearch g lo hi = .ok m ∧ lo ≤ m ∧ m < hi ∧ g m = .eq := by
  rcases bsGo_spec g (hi - lo) lo hi hlh (Nat.le_refl _) hmono with
    ⟨m, hm, hm1, hm2, hm3⟩ | ⟨p, hp, hp1, hp2, hp3⟩
  · exact ⟨m, hm, hm1, hm2, hm3⟩
  · exfalso
    by_cases hip : i < p
    · have := (hp3 i h1 h2).1 hip
      rw [heq] at this; exact Ordering.noConfusion this
    · have := (hp3 i h1 h2).2 (by omega)
      rw [heq] at this; exact Ordering.noConfusion this

/-- If the monotone comparator is never `.eq` on the window, the search
returns the splitting insertion point. -/
theorem bsearch_not_found (g : Nat → Ordering) (lo hi : Nat) (hlh : lo ≤ hi)
    (hmono : ∀ i j, lo ≤ i → i ≤ j → j < hi → ordRank (g i) ≤ ordRank (g j))
    (hno : ∀ j, lo ≤ j → j < hi → g j ≠ .eq) :
    ∃ p, bsearch g lo hi = .error p ∧ lo ≤ p ∧ p ≤ hi ∧
      (∀ j, lo ≤ j → j < hi → (j < p → g j = .lt) ∧ (p ≤ j → g j = .gt)) := by
  rcases bsGo_spec g (hi - lo) lo hi hlh (Nat.le_refl _) hmono with
    ⟨m, _, hm1, hm2, hm3⟩ | ⟨p, hp, hp1, hp2, hp3⟩
  · exact absurd hm3 (hno m hm1 hm2)
  · exact ⟨p, hp, hp1, hp2, hp3⟩

/-- Total UTF-8 byte length of a character list (Rust `str::len`). -/
def byteLen : List Char → Nat
  | [] => 0
  | c :: cs => c.utf8Size + byteLen cs

theorem byteLen_append (a b : List Char) :
    byteLen (a ++ b) = byteLen a + byteLen b := by
  induction a with
  | nil => simp [byteLen]
  | cons c cs ih => simp [byteLen, ih]; omega

/-- `str::char_indices` starting at byte offset `k`: each character paired
with its byte offset. -/
def charIndices (k : Nat) : List Char → List (Nat × Char)
  | [] => []
  | c :: cs => (k, c) :: charIndices (k + c.utf8Size) cs

theorem charIndices_append (k : Nat) (a b : List Char) :
    charIndices k (a ++ b) = charIndices k a ++ charIndices (k + byteLen a) b := by
  induction a generalizing k with
  | nil => simp [charIndices, byteLen]
  | cons c cs ih =>
    show (k, c) :: charIndices (k + c.utf8Size) (cs ++ b) =
      (k, c) :: (charIndices (k + c.utf8Size) cs ++
        charIndices (k + (c.utf8Size + byteLen cs)) b)
    rw [ih, Nat.add_assoc]

theorem charIndices_mem_bounds (k : Nat) (l : List Char) :
    ∀ x ∈ charIndices k l, k ≤ x.1 ∧ x.1 < k + byteLen l := by
  induction l generalizing k with
  | nil => simp [charIndices]
  | cons c cs ih =>
    intro x hx
    simp [charIndices] at hx
    rcases hx with h | h
    · subst h
      have := Char.utf8Size_pos c
      simp [byteLen]; omega
    · have h2 := ih (k + c.utf8Size) x h
      simp [byteLen]
      omega

/-- Number of indexed characters whose byte offset falls in `[s, e)`. -/
def countIn (l : List (Nat × Char)) (s e : Nat) : Nat :=
  l.countP fun x => decide (s ≤ x.1 ∧ x.1 < e)

theorem countIn_nil (s e : Nat) : countIn [] s e = 0 := rfl

theorem countIn_append (a b : List (Nat × Char)) (s e : Nat) :
    countIn (a ++ b) s e = countIn a s e + countIn b s e := by
  simp [countIn, List.countP_append]

theorem countIn_zero (l : List (Nat × Char)) {s e : Nat} (h : e ≤ s) :
    countIn l s e = 0 := by
  simp only [countIn, List.countP_eq_zero, decide_eq_true_eq]
  intro x hx
  omega

theorem countIn_single (b : Nat) (c : Char) (s e : Nat) :
    countIn [(b, c)] s e = if s ≤ b ∧ b < e then 1 else 0 := by
  simp only [countIn, List.countP_cons, List.countP_nil, Nat.zero_add]
  by_cases h : s ≤ b ∧ b < e <;> simp [h]

/-- Characters all below `m` are counted the same for any bound `≥ m`. -/
theorem countIn_high (l : List (Nat × Char)) {m e s : Nat}
    (hl : ∀ x ∈ l, x.1 < m) (he : m ≤ e) :
    countIn l s e = countIn l s m := by
  induction l with
  | nil => rfl
  | cons x xs ih =>
    have hx : x.1 < m := hl x (by simp)
    have hxs : ∀ y ∈ xs, y.1 < m := fun y hy => hl y (List.mem_cons_of_mem _ hy)
    simp only [countIn, List.countP_cons] at ih ⊢
    rw [ih hxs]
    congr 1
    by_cases hs : s ≤ x.1
    · have h1 : s ≤ x.1 ∧ x.1 < e := ⟨hs, by omega⟩
      have h2 : s ≤ x.1 ∧ x.1 < m := ⟨hs, hx⟩
      simp [h1, h2]
    · simp [hs]

theorem countIn_low (l : List (Nat × Char)) {e s : Nat}
    (hl : ∀ x ∈ l, e ≤ x.1) :
    countIn l s e = 0 := by
  simp only [countIn, List.countP_eq_zero, decide_eq_true_eq]
  intro x hx
  have := hl x hx
  omega

/-- Loop state of `wrap` (src/main.rs:23-72): emitted `lines`, byte offset
`start` of the current line, byte offset `stop` of the last break
opportunity (`end` in the source), char count `after` since that break,
char count `len` of the current unbroken line, and `skip` (whether the
break consumes the break character). -/
structure WrapSt where
  lines : List (Nat × Nat)
  start : Nat
  stop : Nat
  after : Nat
  len : Nat
  skip : Bool
deriving DecidableEq

/-- One iteration of the `wrap` loop body for the character `c` at byte
offset `i` (src/main.rs:35-68): bump `len`, dispatch on the character
(newline forces a break by setting `len = width + 1`; space records a
consuming break; hyphen and em-dash record a non-consuming break after
the character while within budget; anything else grows `after`), then
flush a line if `len` exceeds `width`, force-breaking at the current
character when no break opportunity exists (`len == after`). -/
def wrapStep (width : Nat) (st : WrapSt) (i : Nat) (c : Char) : WrapSt :=
  let st1 : WrapSt :=
    if c = '\n' then
      { st with after := 0, stop := i, skip := true, len := width + 1 }
    else if c = ' ' then
      { st with after := 0, stop := i, skip := true, len := st.len + 1 }
    else if (c = '-' ∨ c = '—') ∧ st.len + 1 ≤ width then
      { st with after := 0, stop := i + c.utf8Size, skip := false, len := st.len + 1 }
    else
      { st with after := st.after + 1, len := st.len + 1 }
  if st1.len > width then
    let st2 : WrapSt :=
      if st1.len = st1.after then
        { st1 with after := 1, stop := i, skip := false }
      else st1
    { lines := st2.lines ++ [(st2.start, st2.stop)]
      start := st2.stop + (if st2.skip then 1 else 0)
      stop := st2.stop
      after := st2.after
      len := st2.after
      skip := st2.skip }
  else st1

def wrapInit : WrapSt :=
  { lines := [], start := 0, stop := 0, after := 0, len := 0, skip := false }

/-- `wrap(text, width)` (src/main.rs:23-72): scan `char_indices`, return the
accumulated line spans.  Note the loop never flushes a final partial line. -/
def wrap (text : List Char) (width : Nat) : List (Nat × Nat) :=
  ((charIndices 0 text).foldl (fun st ic => wrapStep width st ic.1 ic.2) wrapInit).lines

/-- Sorted-disjoint chain of spans starting no earlier than `lo`. -/
def chainFrom : Nat → List (Nat × Nat) → Prop
  | _, [] => True
  | lo, p :: rest => lo ≤ p.1 ∧ p.1 ≤ p.2 ∧ chainFrom p.2 rest

/-- End of the last span of a chain (or `lo` when empty). -/
def lastEnd : Nat → List (Nat × Nat) → Nat
  | lo, [] => lo
  | _, p :: rest => lastEnd p.2 rest

theorem chainFrom_append (lo s e : Nat) (l : List (Nat × Nat))
    (hc : chainFrom lo l) (hs : lastEnd lo l ≤ s) (hse : s ≤ e) :
    chainFrom lo (l ++ [(s, e)]) := by
  induction l generalizing lo with
  | nil => exact ⟨hs, hse, trivial⟩
  | cons p rest ih =>
    obtain ⟨h1, h2, h3⟩ := hc
    exact ⟨h1, h2, ih p.2 h3 hs⟩

theorem lastEnd_append (lo s e : Nat) (l : List (Nat × Nat)) :
    lastEnd lo (l ++ [(s, e)]) = e := by
  induction l generalizing lo with
  | nil => rfl
  | cons p rest ih => exact ih p.2

theorem le_lastEnd (lo : Nat) (l : List (Nat × Nat)) (hc : chainFrom lo l) :
    lo ≤ lastEnd lo l := by
  induction l generalizing lo with
  | nil => exact Nat.le_refl lo
  | cons p rest ih =>
    obtain ⟨h1, h2, h3⟩ := hc
    calc lo ≤ p.2 := by omega
    _ ≤ lastEnd p.2 rest := ih p.2 h3

theorem chainFrom_mem_le (lo : Nat) (l : List (Nat × Nat)) (hc : chainFrom lo l) :
    ∀ p ∈ l, p.2 ≤ lastEnd lo l := by
  induction l generalizing lo with
  | nil => simp
  | cons q rest ih =>
    obtain ⟨h1, h2, h3⟩ := hc
    intro p hp
    rcases List.mem_cons.mp hp with h | h
    · subst h
      exact le_lastEnd p.2 rest h3
    · exact ih q.2 h3 p h

/-- Invariant of the `wrap` loop over the indexed text `L`, holding between
iterations when `b` is the byte offset of the next character: the emitted
lines form a sorted-disjoint chain below the current line start, the
various counters bound the number of characters counted by `countIn L`,
and every emitted line holds at most `width` characters. -/
structure WrapInv (L : List (Nat × Char)) (width : Nat) (st : WrapSt) (b : Nat) : Prop where
  chain : chainFrom 0 st.lines
  lastLe : lastEnd 0 st.lines ≤ st.start
  startLe : st.start ≤ b
  stopLe : st.stop ≤ b
  skipLt : st.skip = true → st.stop < b
  afterLe : st.after ≤ st.len
  lenLe : st.len ≤ width
  cntStart : countIn L st.start b ≤ st.len
  cntAfter : countIn L (st.stop + (if st.skip then 1 else 0)) b ≤ st.after
  cntLine : countIn L st.start st.stop ≤ width
  lineCnt : ∀ p ∈ st.lines, countIn L p.1 p.2 ≤ width
  eqOrLe : st.len = st.after ∨ st.start ≤ st.stop

theorem wrapInv_mk {L : List (Nat × Char)} {width b : Nat}
    {lines : List (Nat × Nat)} {start stop after len : Nat} {skip : Bool}
    (h1 : chainFrom 0 lines)
    (h2 : lastEnd 0 lines ≤ start)
    (h3 : start ≤ b)
    (h4 : stop ≤ b)
    (h5 : skip = true → stop < b)
    (h6 : after ≤ len)
    (h7 : len ≤ width)
    (h8 : countIn L start b ≤ len)
    (h9 : countIn L (stop + (if skip then 1 else 0)) b ≤ after)
    (h10 : countIn L start stop ≤ width)
    (h11 : ∀ p ∈ lines, countIn L p.1 p.2 ≤ width)
    (h12 : len = after ∨ start ≤ stop) :
    WrapInv L width ⟨lines, start, stop, after, len, skip⟩ b :=
  ⟨h1, h2, h3, h4, h5, h6, h7, h8, h9, h10, h11, h12⟩

/-- The state produced by flushing a line at a consuming break located at
the current byte `b` (newline, or space on overflow) satisfies the
invariant at `b + 1`. -/
theorem wrapInv_push_space (L : List (Nat × Char)) (width : Nat) (st : WrapSt)
    (b : Nat) (hinv : WrapInv L width st b) :
    WrapInv L width ⟨st.lines ++ [(st.start, b)], b + 1, b, 0, 0, true⟩ (b + 1) := by
  apply wrapInv_mk
  · exact chainFrom_append 0 st.start b st.lines hinv.chain hinv.lastLe hinv.startLe
  · rw [lastEnd_append]; omega
  · omega
  · omega
  · intro _; omega
  · omega
  · omega
  · rw [countIn_zero L (Nat.le_refl _)]
  · have h0 : countIn L (b + 1) (b + 1) = 0 := countIn_zero L (Nat.le_refl _)
    simp [h0]
  · rw [countIn_zero L (by omega)]; omega
  · intro p hp
    rcases List.mem_append.mp hp with h | h
    · exact hinv.lineCnt p h
    · have : p = (st.start, b) := by simpa using h
      subst this
      exact le_trans hinv.cntStart hinv.lenLe
  · exact Or.inl rfl

/-- Preservation of the `wrap` invariant by a single loop iteration.
`H1` states that `L` has exactly one character with a byte offset in
`[b, b + utf8Size c)`, namely the current one at `b`. -/
theorem wrapStep_inv (L : List (Nat × Char)) (width : Nat) (hw : 1 ≤ width)
    (st : WrapSt) (b : Nat) (c : Char)
    (H1 : ∀ s, s ≤ b → countIn L s (b + c.utf8Size) = countIn L s b + 1)
    (hinv : WrapInv L width st b) :
    WrapInv L width (wrapStep width st b c) (b + c.utf8Size) := by
  have hcs : 1 ≤ c.utf8Size := Char.utf8Size_pos c
  by_cases hnl : c = '\n'
  · subst hnl
    have hsz : ('\n' : Char).utf8Size = 1 := by decide
    have hstep : wrapStep width st b '\n' =
        ⟨st.lines ++ [(st.start, b)], b + 1, b, 0, 0, true⟩ := by
      simp [wrapStep]
    rw [hstep, hsz]
    exact wrapInv_push_space L width st b hinv
  by_cases hsp : c = ' '
  · subst hsp
    have hsz : (' ' : Char).utf8Size = 1 := by decide
    rw [hsz] at H1
    by_cases hpush : st.len + 1 > width
    · have hstep : wrapStep width st b ' ' =
          ⟨st.lines ++ [(st.start, b)], b + 1, b, 0, 0, true⟩ := by
        simp [wrapStep, hpush]
      rw [hstep, hsz]
      exact wrapInv_push_space L width st b hinv
    · have hstep : wrapStep width st b ' ' =
          ⟨st.lines, st.start, b, 0, st.len + 1, true⟩ := by
        simp [wrapStep, hpush]
      rw [hstep, hsz]
      apply wrapInv_mk
      · exact hinv.chain
      · exact hinv.lastLe
      · have := hinv.startLe; omega
      · omega
      · intro _; omega
      · omega
      · omega
      · rw [H1 st.start hinv.startLe]
        have := hinv.cntStart; omega
      · have h0 : countIn L (b + 1) (b + 1) = 0 := countIn_zero L (Nat.le_refl _)
        simp [h0]
      · calc countIn L st.start b ≤ st.len := hinv.cntStart
        _ ≤ width := hinv.lenLe
      · exact hinv.lineCnt
      · exact Or.inr hinv.startLe
  by_cases hhy : (c = '-' ∨ c = '—') ∧ st.len + 1 ≤ width
  · have hstep : wrapStep width st b c =
        ⟨st.lines, st.start, b + c.utf8Size, 0, st.len + 1, false⟩ := by
      simp [wrapStep, hnl, hsp, hhy]
    rw [hstep]
    apply wrapInv_mk
    · exact hinv.chain
    · exact hinv.lastLe
    · have := hinv.startLe; omega
    · omega
    · intro h; exact Bool.noConfusion h
    · omega
    · exact hhy.2
    · rw [H1 st.start hinv.startLe]
      have := hinv.cntStart; omega
    · have h0 : countIn L (b + c.utf8Size) (b + c.utf8Size) = 0 :=
        countIn_zero L (Nat.le_refl _)
      simp [h0]
    · rw [H1 st.start hinv.startLe]
      have := hinv.cntStart
      have := hhy.2
      omega
    · exact hinv.lineCnt
    · exact Or.inr (by have := hinv.startLe; omega)
  -- remaining: ordinary character
  have hstopskip : st.stop + (if st.skip then 1 else 0) ≤ b := by
    cases hsk : st.skip with
    | true => have := hinv.skipLt hsk; simp; omega
    | false => have := hinv.stopLe; simp; omega
  by_cases hpush : st.len + 1 > width
  · by_cases hforce : st.len + 1 = st.after + 1
    · have hstep : wrapStep width st b c =
          ⟨st.lines ++ [(st.start, b)], b, b, 1, 1, false⟩ := by
        simp [wrapStep, hnl, hsp, hhy, hpush]
        split
        · simp
        · exfalso; omega
      rw [hstep]
      apply wrapInv_mk
      · exact chainFrom_append 0 st.start b st.lines hinv.chain hinv.lastLe hinv.startLe
      · rw [lastEnd_append]
      · omega
      · omega
      · intro h; exact Bool.noConfusion h
      · omega
      · exact hw
      · rw [H1 b (Nat.le_refl b), countIn_zero L (Nat.le_refl _)]
      · have h0 : countIn L b (b + c.utf8Size) = 1 := by
          rw [H1 b (Nat.le_refl b), countIn_zero L (Nat.le_refl _)]
        simp [h0]
      · rw [countIn_zero L (Nat.le_refl _)]; omega
      · intro p hp
        rcases List.mem_append.mp hp with h | h
        · exact hinv.lineCnt p h
        · have : p = (st.start, b) := by simpa using h
          subst this
          exact le_trans hinv.cntStart hinv.lenLe
      · exact Or.inl rfl
    · have hstep : wrapStep width st b c =
          ⟨st.lines ++ [(st.start, st.stop)],
            st.stop + (if st.skip then 1 else 0), st.stop,
            st.after + 1, st.after + 1, st.skip⟩ := by
        simp [wrapStep, hnl, hsp, hhy, hpush]
        split
        · exfalso; omega
        · simp
      rw [hstep]
      have hss : st.start ≤ st.stop := by
        rcases hinv.eqOrLe with h | h
        · omega
        · exact h
      apply wrapInv_mk
      · exact chainFrom_append 0 st.start st.stop st.lines hinv.chain hinv.lastLe hss
      · rw [lastEnd_append]; omega
      · omega
      · have := hinv.stopLe; omega
      · intro h
        have := hinv.skipLt h
        omega
      · omega
      · have := hinv.afterLe
        have := hinv.lenLe
        omega
      · rw [H1 _ hstopskip]
        have := hinv.cntAfter; omega
      · rw [H1 _ hstopskip]
        have := hinv.cntAfter; omega
      · rw [countIn_zero L (by omega)]; omega
      · intro p hp
        rcases List.mem_append.mp hp with h | h
        · exact hinv.lineCnt p h
        · have : p = (st.start, st.stop) := by simpa using h
          subst this
          exact hinv.cntLine
      · exact Or.inl rfl
  · have hstep : wrapStep width st b c =
        ⟨st.lines, st.start, st.stop, st.after + 1, st.len + 1, st.skip⟩ := by
      simp [wrapStep, hnl, hsp, hhy, hpush]
    rw [hstep]
    apply wrapInv_mk
    · exact hinv.chain
    · exact hinv.lastLe
    · have := hinv.startLe; omega
    · have := hinv.stopLe; omega
    · intro h
      have := hinv.skipLt h
      omega
    · have := hinv.afterLe; omega
    · omega
    · rw [H1 st.start hinv.startLe]
      have := hinv.cntStart; omega
    · rw [H1 _ hstopskip]
      have := hinv.cntAfter; omega
    · exact hinv.cntLine
    · exact hinv.lineCnt
    · rcases hinv.eqOrLe with h | h
      · exact Or.inl (by omega)
      · exact Or.inr h

theorem wrap_fold_inv (width : Nat) (hw : 1 ≤ width) (t : List Char) :
    ∀ cs pre st, t = pre ++ cs →
      WrapInv (charIndices 0 t) width st (byteLen pre) →
      WrapInv (charIndices 0 t) width
        ((charIndices (byteLen pre) cs).foldl
          (fun a ic => wrapStep width a ic.1 ic.2) st)
        (byteLen t) := by
  intro cs
  induction cs with
  | nil =>
    intro pre st ht hinv
    have : byteLen t = byteLen pre := by
      rw [ht, byteLen_append]; simp [byteLen]
    rw [this]
    simpa [charIndices] using hinv
  | cons c cs ih =>
    intro pre st ht hinv
    have hL : charIndices 0 t =
        charIndices 0 pre ++
          ((byteLen pre, c) :: charIndices (byteLen pre + c.utf8Size) cs) := by
      rw [ht, charIndices_append]
      simp [charIndices]
    have hA : ∀ x ∈ charIndices 0 pre, x.1 < byteLen pre := by
      intro x hx
      have := charIndices_mem_bounds 0 pre x hx
      omega
    have hF : ∀ x ∈ charIndices (byteLen pre + c.utf8Size) cs,
        byteLen pre + c.utf8Size ≤ x.1 := by
      intro x hx
      exact (charIndices_mem_bounds _ cs x hx).1
    have hcsz := Char.utf8Size_pos c
    have hsplit : ∀ s e, countIn (charIndices 0 t) s e =
        countIn (charIndices 0 pre) s e +
        countIn [(byteLen pre, c)] s e +
        countIn (charIndices (byteLen pre + c.utf8Size) cs) s e := by
      intro s e
      rw [hL]
      rw [show (byteLen pre, c) :: charIndices (byteLen pre + c.utf8Size) cs =
          [(byteLen pre, c)] ++ charIndices (byteLen pre + c.utf8Size) cs from rfl]
      rw [countIn_append, countIn_append]
      omega
    have H1 : ∀ s, s ≤ byteLen pre →
        countIn (charIndices 0 t) s (byteLen pre + c.utf8Size) =
          countIn (charIndices 0 t) s (byteLen pre) + 1 := by
      intro s hs
      rw [hsplit s (byteLen pre + c.utf8Size), hsplit s (byteLen pre)]
      rw [countIn_high (charIndices 0 pre) hA (by omega : byteLen pre ≤ byteLen pre + c.utf8Size)]
      rw [countIn_low _ hF]
      rw [countIn_low _ (fun x hx => by have := hF x hx; omega : ∀ x ∈ charIndices (byteLen pre + c.utf8Size) cs, byteLen pre ≤ x.1)]
      rw [countIn_single, countIn_single]
      rw [if_pos ⟨hs, by omega⟩, if_neg (by omega)]
    have hstep := wrapStep_inv (charIndices 0 t) width hw st (byteLen pre) c H1 hinv
    have ht2 : t = (pre ++ [c]) ++ cs := by rw [ht]; simp
    have hb2 : byteLen (pre ++ [c]) = byteLen pre + c.utf8Size := by
      rw [byteLen_append]; simp [byteLen]
    have := ih (pre ++ [c]) (wrapStep width st (byteLen pre) c) ht2 (by rw [hb2]; exact hstep)
    rw [hb2] at this
    simpa [charIndices] using this

/-- Master structural facts about `wrap`: the spans form a sorted disjoint
chain, every span ends within the text, and every span holds at most
`width` characters. -/
theorem wrap_props (t : List Char) (w : Nat) (hw : 1 ≤ w) :
    chainFrom 0 (wrap t w) ∧
    (∀ p ∈ wrap t w, p.2 ≤ byteLen t) ∧
    (∀ p ∈ wrap t w, countIn (charIndices 0 t) p.1 p.2 ≤ w) := by
  have hc0 : countIn (charIndices 0 t) 0 0 = 0 := countIn_zero _ (Nat.le_refl 0)
  have hinit : WrapInv (charIndices 0 t) w wrapInit (byteLen ([] : List Char)) := by
    show WrapInv (charIndices 0 t) w wrapInit 0
    apply wrapInv_mk
    · trivial
    · exact Nat.le_refl 0
    · exact Nat.le_refl 0
    · exact Nat.le_refl 0
    · intro h; exact Bool.noConfusion h
    · exact Nat.le_refl 0
    · exact Nat.zero_le w
    · exact Nat.le_of_eq hc0
    · exact Nat.le_of_eq hc0
    · rw [hc0]; exact Nat.zero_le w
    · intro p hp; exact absurd hp (List.not_mem_nil p)
    · exact Or.inl rfl
  have hfin := wrap_fold_inv w hw t t [] wrapInit rfl hinit
  simp only [byteLen] at hfin
  constructor
  · exact hfin.chain
  constructor
  · intro p hp
    have h1 := chainFrom_mem_le 0 _ hfin.chain p hp
    have h2 := hfin.lastLe
    have h3 := hfin.startLe
    omega
  · intro p hp
    exact hfin.lineCnt p hp

/-- C1 counterexample: `wrap("AAAA BBBB CCCC", 4)` yields only two spans,
covering `"AAAA"` and `"BBBB"`; byte 10 (the first `C`) is covered by no
span, so the output is not the claimed three-span partition of
`[0, len(text))`. -/
theorem c1_counterexample :
    wrap ("AAAA BBBB CCCC".data) 4 = [(0, 4), (5, 9)] ∧
    (∀ p ∈ wrap ("AAAA BBBB CCCC".data) 4, ¬(p.1 ≤ 10 ∧ 10 < p.2)) ∧
    wrap ("AAAA BBBB CCCC".data) 4 ≠ [(0, 4), (5, 9), (10, 14)] := by
  decide

/-- C1 (amended): for every chapter text and positive width, `wrap`
returns spans that are sorted ascending and pairwise disjoint (each span's
start is at most its end, and each span's end is at most the next span's
start), all contained in `[0, len(text))`; consumed break characters and
any text after the last flushed break belong to no span, so the spans need
not cover the text: in particular `wrap("AAAA BBBB CCCC", 4)` yields
exactly the two spans covering `"AAAA"` and `"BBBB"`, the trailing
`"CCCC"` being dropped. -/
theorem c1_wrap_spans (t : List Char) (w : Nat) (hw : 1 ≤ w) :
    chainFrom 0 (wrap t w) ∧
    (∀ p ∈ wrap t w, p.2 ≤ byteLen t) ∧
    wrap ("AAAA BBBB CCCC".data) 4 = [(0, 4), (5, 9)] :=
  ⟨(wrap_props t w hw).1, (wrap_props t w hw).2.1, by decide⟩

theorem c1_witness :
    chainFrom 0 (wrap ("AAAA BBBB CCCC".data) 4) ∧
    (∀ p ∈ wrap ("AAAA BBBB CCCC".data) 4, p.2 ≤ byteLen ("AAAA BBBB CCCC".data)) ∧
    wrap ("AAAA BBBB CCCC".data) 4 = [(0, 4), (5, 9)] :=
  c1_wrap_spans ("AAAA BBBB CCCC".data) 4 (by decide)

/-- Modelled from the spec: per-character terminal column width, most
characters 1, wide CJK-style characters 2, zero-width characters 0 (for
the purposes of the counterexample only the CJK Unified Ideographs block
and the combining diacritical marks block are tabulated). -/
def specCharWidth (c : Char) : Nat :=
  if 0x300 ≤ c.toNat ∧ c.toNat ≤ 0x36F then 0
  else if 0x4E00 ≤ c.toNat ∧ c.toNat ≤ 0x9FFF then 2
  else 1

/-- Display width (per the spec's definition) of the characters of `t`
whose byte offsets lie in `[s, e)`. -/
def specSpanWidth (t : List Char) (s e : Nat) : Nat :=
  ((charIndices 0 t).filter fun x => decide (s ≤ x.1 ∧ x.1 < e)).foldl
    (fun n x => n + specCharWidth x.2) 0

/-- C2 counterexample: wrapping two CJK words of display width 4 each at
`maxColumns = 2` emits the single span `(0, 6)` ("日日"), whose display
width 4 exceeds the budget and is not the claimed forced-break width 2:
`wrap` counts every character as one column. -/
theorem c2_counterexample :
    wrap ("日日 日日".data) 2 = [(0, 6)] ∧
    specSpanWidth ("日日 日日".data) 0 6 = 4 ∧
    ¬(specSpanWidth ("日日 日日".data) 0 6 ≤ 2) ∧
    specSpanWidth ("日日 日日".data) 0 6 ≠ 2 := by
  decide

/-- C2 (amended): for every text and width `maxColumns ≥ 1`, every line
span produced by `wrap(text, maxColumns)` contains at most `maxColumns`
characters — the implementation measures lines in characters, each
counting one column, not in terminal display width; a single unbreakable
token longer than the budget is force-broken into lines of exactly
`maxColumns` characters, which also satisfy this bound. -/
theorem c2_wrap_width (t : List Char) (w : Nat) (hw : 1 ≤ w) :
    ∀ p ∈ wrap t w, countIn (charIndices 0 t) p.1 p.2 ≤ w :=
  (wrap_props t w hw).2.2

theorem c2_witness :
    countIn (charIndices 0 ("AAAA BBBB CCCC".data)) 0 4 ≤ 4 :=
  c2_wrap_width ("AAAA BBBB CCCC".data) 4 (by decide) (0, 4) (by decide)

/-- `get_line` (src/main.rs:607-612): binary search `lines` by start byte
(`binary_search_by_key`), `Ok(n) => n`, `Err(n) => n - 1`. -/
def getLine (lines : List (Nat × Nat)) (byte : Nat) : Nat :=
  match bsearch (fun i => natCmp (lines.getD i (0, 0)).1 byte) 0 lines.length with
  | .ok n => n
  | .error n => n - 1

/-- The spec's §3 partition invariant for a `lines` table over a text of
`n` bytes: contiguous, nonempty spans starting at 0 and ending at `n`. -/
def partitions : Nat → List (Nat × Nat) → Nat → Prop
  | lo, [], n => lo = n
  | lo, p :: rest, n => p.1 = lo ∧ lo < p.2 ∧ partitions p.2 rest n

theorem partitions_bounds (d : Nat × Nat) :
    ∀ (l : List (Nat × Nat)) (lo n i : Nat), partitions lo l n → i < l.length →
      lo ≤ (l.getD i d).1 ∧ (l.getD i d).1 < (l.getD i d).2 := by
  intro l
  induction l with
  | nil => intro lo n i _ hi; simp at hi
  | cons p rest ih =>
    intro lo n i hp hi
    obtain ⟨h1, h2, h3⟩ := hp
    cases i with
    | zero => simp [List.getD_cons_zero]; omega
    | succ i =>
      simp only [List.getD_cons_succ]
      have := ih p.2 n i h3 (by simpa using hi)
      omega

theorem partitions_next (d : Nat × Nat) :
    ∀ (l : List (Nat × Nat)) (lo n i : Nat), partitions lo l n → i + 1 < l.length →
      (l.getD i d).2 = (l.getD (i + 1) d).1 := by
  intro l
  induction l with
  | nil => intro lo n i _ hi; simp at hi
  | cons p rest ih =>
    intro lo n i hp hi
    obtain ⟨h1, h2, h3⟩ := hp
    cases i with
    | zero =>
      cases rest with
      | nil => simp at hi
      | cons q rest2 =>
        obtain ⟨h4, h5, h6⟩ := h3
        simp [List.getD_cons_zero, List.getD_cons_succ]
        omega
    | succ i =>
      simp only [List.getD_cons_succ]
      exact ih p.2 n i h3 (by simpa using hi)

theorem partitions_start_strict (d : Nat × Nat) (l : List (Nat × Nat)) (lo n : Nat)
    (hp : partitions lo l n) :
    ∀ j, j < l.length → ∀ i, i < j → (l.getD i d).1 < (l.getD j d).1 := by
  intro j
  induction j with
  | zero => intro _ i hi; omega
  | succ j ih =>
    intro hj i hi
    have hnext := partitions_next d l lo n j hp hj
    have hb := partitions_bounds d l lo n j hp (by omega)
    by_cases hij : i = j
    · subst hij
      omega
    · have := ih (by omega) i (by omega)
      omega

theorem ordRank_natCmp_mono {a b t : Nat} (h : a ≤ b) :
    ordRank (natCmp a t) ≤ ordRank (natCmp b t) := by
  unfold natCmp
  split_ifs <;> simp [ordRank] <;> omega

/-- C5: for every `lines` table that partitions `[0, n)` sorted ascending
by start byte, and every line index `i` with span `(start, end)`, the
binary-search line lookup `get_line` maps both `start` and `end - 1` back
to `i` (insertion point minus one on a miss). -/
theorem c5_get_line (lines : List (Nat × Nat)) (n i : Nat)
    (hp : partitions 0 lines n) (hi : i < lines.length) :
    getLine lines (lines.getD i (0, 0)).1 = i ∧
    getLine lines ((lines.getD i (0, 0)).2 - 1) = i := by
  have hmono : ∀ byte a b, 0 ≤ a → a ≤ b → b < lines.length →
      ordRank (natCmp (lines.getD a (0, 0)).1 byte) ≤
        ordRank (natCmp (lines.getD b (0, 0)).1 byte) := by
    intro byte a b _ hab hb
    rcases Nat.lt_or_ge a b with h | h
    · exact ordRank_natCmp_mono
        (Nat.le_of_lt (partitions_start_strict (0, 0) lines 0 n hp b hb a h))
    · have : a = b := by omega
      subst this
      exact Nat.le_refl _
  have hbnd := partitions_bounds (0, 0) lines 0 n i hp hi
  constructor
  · -- lookup of the start byte
    have hfound := bsearch_found
      (fun j => natCmp (lines.getD j (0, 0)).1 (lines.getD i (0, 0)).1)
      0 lines.length (Nat.zero_le _) (fun a b ha hab hb => hmono _ a b ha hab hb)
      i (Nat.zero_le i) hi (natCmp_eq_iff.mpr rfl)
    obtain ⟨m, hok, _, hmlt, hmeq⟩ := hfound
    have hms : (lines.getD m (0, 0)).1 = (lines.getD i (0, 0)).1 :=
      natCmp_eq_iff.mp hmeq
    have hmi : m = i := by
      rcases Nat.lt_trichotomy m i with h | h | h
      · have := partitions_start_strict (0, 0) lines 0 n hp i hi m h
        omega
      · exact h
      · have := partitions_start_strict (0, 0) lines 0 n hp m hmlt i h
        omega
    unfold getLine
    rw [hok, hmi]
  · -- lookup of the last byte of the span
    by_cases hone : (lines.getD i (0, 0)).1 = (lines.getD i (0, 0)).2 - 1
    · have hfound := bsearch_found
        (fun j => natCmp (lines.getD j (0, 0)).1 ((lines.getD i (0, 0)).2 - 1))
        0 lines.length (Nat.zero_le _) (fun a b ha hab hb => hmono _ a b ha hab hb)
        i (Nat.zero_le i) hi (natCmp_eq_iff.mpr hone)
      obtain ⟨m, hok, _, hmlt, hmeq⟩ := hfound
      have hms : (lines.getD m (0, 0)).1 = (lines.getD i (0, 0)).2 - 1 :=
        natCmp_eq_iff.mp hmeq
      have hmi : m = i := by
        rcases Nat.lt_trichotomy m i with h | h | h
        · have := partitions_start_strict (0, 0) lines 0 n hp i hi m h
          omega
        · exact h
        · have := partitions_start_strict (0, 0) lines 0 n hp m hmlt i h
          omega
      unfold getLine
      rw [hok, hmi]
    · have hsb : (lines.getD i (0, 0)).1 < (lines.getD i (0, 0)).2 - 1 := by omega
      have hno : ∀ j, 0 ≤ j → j < lines.length →
          natCmp (lines.getD j (0, 0)).1 ((lines.getD i (0, 0)).2 - 1) ≠ .eq := by
        intro j _ hj heq
        have hsj : (lines.getD j (0, 0)).1 = (lines.getD i (0, 0)).2 - 1 :=
          natCmp_eq_iff.mp heq
        rcases Nat.lt_trichotomy j i with h | h | h
        · have := partitions_start_strict (0, 0) lines 0 n hp i hi j h
          omega
        · subst h; exact hone hsj
        · have hnext := partitions_next (0, 0) lines 0 n i hp (by omega)
          rcases Nat.lt_or_ge (i + 1) j with h2 | h2
          · have := partitions_start_strict (0, 0) lines 0 n hp j hj (i + 1) h2
            omega
          · have : j = i + 1 := by omega
            subst this
            omega
      obtain ⟨p, herr, _, hplen, hprops⟩ := bsearch_not_found
        (fun j => natCmp (lines.getD j (0, 0)).1 ((lines.getD i (0, 0)).2 - 1))
        0 lines.length (Nat.zero_le _) (fun a b ha hab hb => hmono _ a b ha hab hb) hno
      have hip : i < p := by
        by_contra hip
        have := (hprops i (Nat.zero_le i) hi).2 (by omega)
        have := natCmp_gt_iff.mp this
        omega
      have hpi : p ≤ i + 1 := by
        by_contra hpi
        have hlen : i + 1 < lines.length := by omega
        have := (hprops (i + 1) (Nat.zero_le _) hlen).1 (by omega)
        have hlt := natCmp_lt_iff.mp this
        have hnext := partitions_next (0, 0) lines 0 n i hp hlen
        omega
      unfold getLine
      rw [herr]
      show p - 1 = i
      omega

theorem c5_witness :
    getLine [(0, 3), (3, 7), (7, 9)] 3 = 1 ∧ getLine [(0, 3), (3, 7), (7, 9)] 6 = 1 :=
  c5_get_line [(0, 3), (3, 7), (7, 9)] 9 1 (by simp [partitions]) (by decide)

/-- The three-way comparator of `Page::click` (src/view.rs:242-250):
`start > byte → Greater`, `end <= byte → Less`, otherwise `Equal`. -/
def linkCmp (byte : Nat) (x : Nat × Nat × String) : Ordering :=
  if byte < x.1 then .gt else if x.2.1 ≤ byte then .lt else .eq

/-- `binary_search_by` over the chapter's link spans, as in `Page::click`. -/
def linkSearch (links : List (Nat × Nat × String)) (byte : Nat) : Except Nat Nat :=
  bsearch (fun i => linkCmp byte (links.getD i (0, 0, ""))) 0 links.length

theorem linkCmp_eq_iff {b : Nat} {x : Nat × Nat × String} :
    linkCmp b x = .eq ↔ (x.1 ≤ b ∧ b < x.2.1) := by
  unfold linkCmp
  split_ifs <;> simp <;> omega

/-- The spec's §3 invariant for `linkSpans`: sorted and pairwise disjoint
spans `(start, end, href)` with `start ≤ end`, starting no earlier than
`lo`. -/
def linksChain : Nat → List (Nat × Nat × String) → Prop
  | _, [] => True
  | lo, x :: rest => lo ≤ x.1 ∧ x.1 ≤ x.2.1 ∧ linksChain x.2.1 rest

theorem linksChain_bounds (d : Nat × Nat × String) :
    ∀ (l : List (Nat × Nat × String)) (lo i : Nat), linksChain lo l → i < l.length →
      lo ≤ (l.getD i d).1 ∧ (l.getD i d).1 ≤ (l.getD i d).2.1 := by
  intro l
  induction l with
  | nil => intro lo i _ hi; simp at hi
  | cons p rest ih =>
    intro lo i hp hi
    obtain ⟨h1, h2, h3⟩ := hp
    cases i with
    | zero => simp [List.getD_cons_zero]; omega
    | succ i =>
      simp only [List.getD_cons_succ]
      have := ih p.2.1 i h3 (by simpa using hi)
      omega

theorem linksChain_next (d : Nat × Nat × String) :
    ∀ (l : List (Nat × Nat × String)) (lo i : Nat), linksChain lo l → i + 1 < l.length →
      (l.getD i d).2.1 ≤ (l.getD (i + 1) d).1 := by
  intro l
  induction l with
  | nil => intro lo i _ hi; simp at hi
  | cons p rest ih =>
    intro lo i hp hi
    obtain ⟨h1, h2, h3⟩ := hp
    cases i with
    | zero =>
      cases rest with
      | nil => simp at hi
      | cons q rest2 =>
        obtain ⟨h4, h5, h6⟩ := h3
        simp [List.getD_cons_zero, List.getD_cons_succ]
        omega
    | succ i =>
      simp only [List.getD_cons_succ]
      exact ih p.2.1 i h3 (by simpa using hi)

theorem linksChain_sep (d : Nat × Nat × String) (l : List (Nat × Nat × String))
    (lo : Nat) (hc : linksChain lo l) :
    ∀ j, j < l.length → ∀ i, i < j → (l.getD i d).2.1 ≤ (l.getD j d).1 := by
  intro j
  induction j with
  | zero => intro _ i hi; omega
  | succ j ih =>
    intro hj i hi
    have hnext := linksChain_next d l lo j hc hj
    have hb := linksChain_bounds d l lo j hc (by omega)
    by_cases hij : i = j
    · subst hij
      omega
    · have := ih (by omega) i (by omega)
      omega

/-- C8: on a sorted, pairwise-disjoint link-span table, the
three-way-comparator binary search of `Page::click` returns `Ok` at the
containing span for every byte inside some span, and `Err` (no span) for
every byte outside all spans. -/
theorem c8_link_hit (links : List (Nat × Nat × String)) (b : Nat)
    (hc : linksChain 0 links) :
    (∀ i, i < links.length → (links.getD i (0, 0, "")).1 ≤ b →
      b < (links.getD i (0, 0, "")).2.1 → linkSearch links b = .ok i) ∧
    ((∀ i, i < links.length →
        ¬((links.getD i (0, 0, "")).1 ≤ b ∧ b < (links.getD i (0, 0, "")).2.1)) →
      ∃ p, linkSearch links b = .error p) := by
  have hmono : ∀ a a', 0 ≤ a → a ≤ a' → a' < links.length →
      ordRank (linkCmp b (links.getD a (0, 0, ""))) ≤
        ordRank (linkCmp b (links.getD a' (0, 0, ""))) := by
    intro a a' _ hle hlt
    rcases Nat.lt_or_ge a a' with h | h
    · have hsep := linksChain_sep (0, 0, "") links 0 hc a' hlt a h
      have hba := linksChain_bounds (0, 0, "") links 0 a hc (by omega)
      unfold linkCmp
      split_ifs <;> simp [ordRank] <;> omega
    · have : a = a' := by omega
      subst this
      exact Nat.le_refl _
  constructor
  · intro i hi hs he
    have heq : linkCmp b (links.getD i (0, 0, "")) = .eq := linkCmp_eq_iff.mpr ⟨hs, he⟩
    obtain ⟨m, hok, _, hmlt, hmeq⟩ := bsearch_found
      (fun j => linkCmp b (links.getD j (0, 0, ""))) 0 links.length
      (Nat.zero_le _) hmono i (Nat.zero_le i) hi heq
    have hin := linkCmp_eq_iff.mp hmeq
    have hmi : m = i := by
      rcases Nat.lt_trichotomy m i with h | h | h
      · have := linksChain_sep (0, 0, "") links 0 hc i hi m h
        omega
      · exact h
      · have := linksChain_sep (0, 0, "") links 0 hc m hmlt i h
        omega
    unfold linkSearch
    rw [hok, hmi]
  · intro hout
    have hno : ∀ j, 0 ≤ j → j < links.length →
        linkCmp b (links.getD j (0, 0, "")) ≠ .eq := by
      intro j _ hj heq
      exact hout j hj (linkCmp_eq_iff.mp heq)
    obtain ⟨p, herr, _, _, _⟩ := bsearch_not_found
      (fun j => linkCmp b (links.getD j (0, 0, ""))) 0 links.length
      (Nat.zero_le _) hmono hno
    exact ⟨p, herr⟩

theorem c8_witness :
    linkSearch [(2, 4, "x"), (6, 9, "y")] 3 = .ok 0 ∧
    ∃ p, linkSearch [(2, 4, "x"), (6, 9, "y")] 5 = .error p :=
  ⟨(c8_link_hit [(2, 4, "x"), (6, 9, "y")] 3 (by simp [linksChain])).1 0
      (by decide) (by decide) (by decide),
   (c8_link_hit [(2, 4, "x"), (6, 9, "y")] 5 (by simp [linksChain])).2
      (by decide)⟩

/-- The crossterm `Attribute` values used by the program (src/epub.rs and
the renderers): style toggles plus the search-highlight pair. -/
inductive Attr
  | reset
  | bold
  | italic
  | underlined
  | noItalic
  | normalIntensity
  | noUnderline
  | reverse
  | noReverse
deriving DecidableEq

/-- The crossterm `Attributes` bitset restricted to the three bits the
program ever sets (src/epub.rs:160-164 only passes Bold, Italic,
Underlined to `set`/`unset`). -/
structure Attrs where
  bold : Bool
  italic : Bool
  underlined : Bool
deriving DecidableEq

def Attrs.none : Attrs := ⟨false, false, false⟩

def Attrs.set (s : Attrs) : Attr → Attrs
  | .bold => { s with bold := true }
  | .italic => { s with italic := true }
  | .underlined => { s with underlined := true }
  | _ => s

def Attrs.unset (s : Attrs) : Attr → Attrs
  | .bold => { s with bold := false }
  | .italic => { s with italic := false }
  | .underlined => { s with underlined := false }
  | _ => s

/-- The `(text, attrs, state)` portion of a `Chapter` under construction
(src/epub.rs:6-16). -/
structure ChapSt where
  text : List Char
  state : Attrs
  attrs : List (Nat × Attr × Attrs)

/-- The two mutations `render`/`Chapter::render` (src/epub.rs:158-227)
perform on that portion of the chapter: appending text, and pushing a
style transition at the current text length (`openA` is the
`state.set(open); attrs.push((text.len(), open, state))` half,
`closeA` the `unset`/`close` half).  A depth-first walk of any markup
tree produces some list of these operations. -/
inductive ROp
  | text (s : List Char)
  | openA (a : Attr)
  | closeA (a : Attr) (cl : Attr)

def applyROp (c : ChapSt) : ROp → ChapSt
  | .text s => { c with text := c.text ++ s }
  | .openA a =>
    let st := c.state.set a
    { c with state := st, attrs := c.attrs ++ [(byteLen c.text, a, st)] }
  | .closeA a cl =>
    let st := c.state.unset a
    { c with state := st, attrs := c.attrs ++ [(byteLen c.text, cl, st)] }

/-- The chapter as initialized by `Epub::get_chapters` (src/epub.rs:59-68):
empty text, default state, and `attrs = vec![(0, Reset, state)]`. -/
def chapterInit : ChapSt :=
  { text := [], state := Attrs.none, attrs := [(0, Attr.reset, Attrs.none)] }

def buildChapter (ops : List ROp) : ChapSt :=
  ops.foldl applyROp chapterInit

/-- Non-decreasing style-run offsets starting no earlier than `lo`. -/
def offsetsChain : Nat → List (Nat × Attr × Attrs) → Prop
  | _, [] => True
  | lo, x :: rest => lo ≤ x.1 ∧ offsetsChain x.1 rest

/-- Offset of the last style run (or `lo` when there is none). -/
def lastOffFrom (lo : Nat) : List (Nat × Attr × Attrs) → Nat
  | [] => lo
  | x :: rest => lastOffFrom x.1 rest

theorem offsetsChain_append (lo : Nat) (l : List (Nat × Attr × Attrs))
    (e : Nat × Attr × Attrs) (hc : offsetsChain lo l) (hk : lastOffFrom lo l ≤ e.1) :
    offsetsChain lo (l ++ [e]) := by
  induction l generalizing lo with
  | nil => exact ⟨hk, trivial⟩
  | cons x rest ih =>
    obtain ⟨h1, h2⟩ := hc
    exact ⟨h1, ih x.1 h2 hk⟩

theorem lastOffFrom_append (lo : Nat) (l : List (Nat × Attr × Attrs))
    (e : Nat × Attr × Attrs) : lastOffFrom lo (l ++ [e]) = e.1 := by
  induction l generalizing lo with
  | nil => rfl
  | cons x rest ih => exact ih x.1

/-- Invariant of a chapter under construction: non-empty `attrs` headed by
the initial `(0, Reset, default)` entry, non-decreasing offsets bounded by
the current text length. -/
structure ChapInv (c : ChapSt) : Prop where
  headInit : ∃ t, c.attrs = (0, Attr.reset, Attrs.none) :: t
  chain : offsetsChain 0 c.attrs
  lastLe : lastOffFrom 0 c.attrs ≤ byteLen c.text

theorem applyROp_inv (c : ChapSt) (op : ROp) (h : ChapInv c) :
    ChapInv (applyROp c op) := by
  obtain ⟨⟨t, ht⟩, hchain, hlast⟩ := h
  cases op with
  | text s =>
    refine ⟨⟨t, ht⟩, hchain, ?_⟩
    show lastOffFrom 0 c.attrs ≤ byteLen (c.text ++ s)
    rw [byteLen_append]
    omega
  | openA a =>
    refine ⟨⟨t ++ [(byteLen c.text, a, c.state.set a)], ?_⟩, ?_, ?_⟩
    · show c.attrs ++ [(byteLen c.text, a, c.state.set a)] =
        (0, Attr.reset, Attrs.none) :: (t ++ [(byteLen c.text, a, c.state.set a)])
      rw [ht]
      rfl
    · show offsetsChain 0 (c.attrs ++ [(byteLen c.text, a, c.state.set a)])
      exact offsetsChain_append 0 c.attrs _ hchain hlast
    · show lastOffFrom 0 (c.attrs ++ [(byteLen c.text, a, c.state.set a)]) ≤ byteLen c.text
      rw [lastOffFrom_append]
  | closeA a cl =>
    refine ⟨⟨t ++ [(byteLen c.text, cl, c.state.unset a)], ?_⟩, ?_, ?_⟩
    · show c.attrs ++ [(byteLen c.text, cl, c.state.unset a)] =
        (0, Attr.reset, Attrs.none) :: (t ++ [(byteLen c.text, cl, c.state.unset a)])
      rw [ht]
      rfl
    · show offsetsChain 0 (c.attrs ++ [(byteLen c.text, cl, c.state.unset a)])
      exact offsetsChain_append 0 c.attrs _ hchain hlast
    · show lastOffFrom 0 (c.attrs ++ [(byteLen c.text, cl, c.state.unset a)]) ≤ byteLen c.text
      rw [lastOffFrom_append]

theorem buildChapter_inv (ops : List ROp) : ChapInv (buildChapter ops) := by
  have hinit : ChapInv chapterInit :=
    ⟨⟨[], rfl⟩, ⟨Nat.le_refl 0, trivial⟩, Nat.le_refl 0⟩
  unfold buildChapter
  generalize chapterInit = c0 at hinit ⊢
  induction ops generalizing c0 with
  | nil => exact hinit
  | cons op ops ih => exact ih (applyROp c0 op) (applyROp_inv c0 op hinit)

theorem offsetsChain_bounds (d : Nat × Attr × Attrs) :
    ∀ (l : List (Nat × Attr × Attrs)) (lo i : Nat), offsetsChain lo l → i < l.length →
      lo ≤ (l.getD i d).1 := by
  intro l
  induction l with
  | nil => intro lo i _ hi; simp at hi
  | cons p rest ih =>
    intro lo i hp hi
    obtain ⟨h1, h2⟩ := hp
    cases i with
    | zero => simpa [List.getD_cons_zero] using h1
    | succ i =>
      simp only [List.getD_cons_succ]
      have := ih p.1 i h2 (by simpa using hi)
      omega

theorem offsetsChain_mono (d : Nat × Attr × Attrs) (l : List (Nat × Attr × Attrs))
    (lo : Nat) (hc : offsetsChain lo l) :
    ∀ j, j < l.length → ∀ i, i ≤ j → (l.getD i d).1 ≤ (l.getD j d).1 := by
  intro j
  induction j with
  | zero =>
    intro _ i hi
    have : i = 0 := by omega
    subst this
    exact Nat.le_refl _
  | succ j ih =>
    intro hj i hi
    have hnext : ∀ (ll : List (Nat × Attr × Attrs)) (llo jj : Nat),
        offsetsChain llo ll → jj + 1 < ll.length →
        (ll.getD jj d).1 ≤ (ll.getD (jj + 1) d).1 := by
      intro ll
      induction ll with
      | nil => intro llo jj _ hjj; simp at hjj
      | cons p rest ih2 =>
        intro llo jj hp hjj
        obtain ⟨h1, h2⟩ := hp
        cases jj with
        | zero =>
          cases rest with
          | nil => simp at hjj
          | cons q rest2 =>
            obtain ⟨h3, h4⟩ := h2
            simpa [List.getD_cons_zero, List.getD_cons_succ] using h3
        | succ jj =>
          simp only [List.getD_cons_succ]
          exact ih2 p.1 jj h2 (by simpa using hjj)
    by_cases hij : i = j + 1
    · subst hij
      exact Nat.le_refl _
    · have h1 := ih (by omega) i (by omega)
      have h2 := hnext l lo j hc hj
      omega

def attrDefault : Nat × Attr × Attrs := (0, Attr.reset, Attrs.none)

/-- The compositor's lookup of the style run active at the start of the
visible range (src/view.rs:341-347, src/main.rs:323-329):
`binary_search_by_key(&text_start, |&x| x.0)`. -/
def attrSearch (attrs : List (Nat × Attr × Attrs)) (ts : Nat) : Except Nat Nat :=
  bsearch (fun i => natCmp (attrs.getD i attrDefault).1 ts) 0 attrs.length

/-- `Ok(n) => n, Err(n) => n - 1` as in both renderers. -/
def attrStart (attrs : List (Nat × Attr × Attrs)) (ts : Nat) : Nat :=
  match attrSearch attrs ts with
  | .ok n => n
  | .error n => n - 1

/-- C9: every chapter built by the extractor has a style-run table whose
first entry is at offset 0 and whose offsets are non-decreasing, and
consequently the compositor's insertion-point-minus-one binary search
yields a valid index for any queried start offset and its subtraction
never underflows (`Err(n)` implies `n ≥ 1`). -/
theorem c9_attr_table (ops : List ROp) (ts : Nat) :
    (buildChapter ops).attrs ≠ [] ∧
    ((buildChapter ops).attrs.getD 0 attrDefault).1 = 0 ∧
    offsetsChain 0 (buildChapter ops).attrs ∧
    attrStart (buildChapter ops).attrs ts < (buildChapter ops).attrs.length ∧
    (∀ m, attrSearch (buildChapter ops).attrs ts = .error m → 1 ≤ m) := by
  obtain ⟨⟨t, ht⟩, hchain, _⟩ := buildChapter_inv ops
  have hne : (buildChapter ops).attrs ≠ [] := by rw [ht]; simp
  have hlen : 0 < (buildChapter ops).attrs.length := by rw [ht]; simp
  have h0 : ((buildChapter ops).attrs.getD 0 attrDefault).1 = 0 := by rw [ht]; rfl
  have hmono : ∀ a b, 0 ≤ a → a ≤ b → b < (buildChapter ops).attrs.length →
      ordRank (natCmp ((buildChapter ops).attrs.getD a attrDefault).1 ts) ≤
        ordRank (natCmp ((buildChapter ops).attrs.getD b attrDefault).1 ts) :=
    fun a b _ hab hb =>
      ordRank_natCmp_mono
        (offsetsChain_mono attrDefault (buildChapter ops).attrs 0 hchain b hb a hab)
  rcases bsGo_spec (fun i => natCmp ((buildChapter ops).attrs.getD i attrDefault).1 ts)
      ((buildChapter ops).attrs.length - 0) 0 (buildChapter ops).attrs.length
      (Nat.zero_le _) (Nat.le_refl _) hmono with
    ⟨m, hok, _, hmlt, _⟩ | ⟨p, herr, _, hple, hprops⟩
  · refine ⟨hne, h0, hchain, ?_, ?_⟩
    · unfold attrStart attrSearch bsearch
      rw [hok]
      exact hmlt
    · intro m0 hm0
      unfold attrSearch bsearch at hm0
      rw [hok] at hm0
      exact Except.noConfusion hm0
  · have hp1 : 1 ≤ p := by
      by_contra hp0
      have hgt := (hprops 0 (Nat.le_refl 0) hlen).2 (by omega)
      have := natCmp_gt_iff.mp hgt
      rw [h0] at this
      omega
    refine ⟨hne, h0, hchain, ?_, ?_⟩
    · unfold attrStart attrSearch bsearch
      rw [herr]
      show p - 1 < (buildChapter ops).attrs.length
      omega
    · intro m0 hm0
      unfold attrSearch bsearch at hm0
      rw [herr] at hm0
      injection hm0 with h
      omega

theorem c9_witness :
    attrStart (buildChapter [ROp.text ("ab".data), ROp.openA Attr.bold,
      ROp.text ("c".data)]).attrs 2 <
    (buildChapter [ROp.text ("ab".data), ROp.openA Attr.bold,
      ROp.text ("c".data)]).attrs.length :=
  (c9_attr_table [ROp.text ("ab".data), ROp.openA Attr.bold,
    ROp.text ("c".data)] 2).2.2.2.1

/-- The compositor's merge loop (src/view.rs:377-399, src/main.rs:346-368):
peek the search-highlight stream `ss` and the base style stream `bs`;
emit the search event only when its offset is strictly smaller, otherwise
emit the base event; on exhaustion extend with the remaining stream. -/
def mergeAttrs : List (Nat × Attr) → List (Nat × Attr) → List (Nat × Attr)
  | [], bs => bs
  | s :: ss, [] => s :: ss
  | s :: ss, b :: bs =>
    if s.1 < b.1 then s :: mergeAttrs ss (b :: bs)
    else b :: mergeAttrs (s :: ss) bs
termination_by ss bs => ss.length + bs.length

/-- C6: whenever the head search-highlight event and the head base style
event carry equal byte offsets, the compositor's merge emits the base
event first, so a base style transition is always applied before a
simultaneous highlight transition in the rendered stream. -/
theorem c6_merge_tie (p : Nat) (hl base : Attr)
    (ss bs : List (Nat × Attr)) :
    mergeAttrs ((p, hl) :: ss) ((p, base) :: bs) =
      (p, base) :: mergeAttrs ((p, hl) :: ss) bs := by
  rw [mergeAttrs]
  simp

/-- Drop the characters covering the first `n` bytes (Rust `&text[n..]`
for `n` on a char boundary). -/
def dropB : Nat → List Char → List Char
  | 0, l => l
  | _, [] => []
  | n + 1, c :: cs => dropB (n + 1 - c.utf8Size) cs

/-- Take the characters covering the first `n` bytes (Rust `&text[..n]`
for `n` on a char boundary). -/
def takeB : Nat → List Char → List Char
  | 0, _ => []
  | _, [] => []
  | n + 1, c :: cs => c :: takeB (n + 1 - c.utf8Size) cs

/-- Rust `str::find` for a literal pattern: byte offset of the first
occurrence of `needle`, scanning char boundaries left to right. -/
def strFindAux (needle : List Char) : List Char → Nat → Option Nat
  | [], acc => if needle.isEmpty then some acc else none
  | c :: cs, acc =>
    if needle.isPrefixOf (c :: cs) then some acc
    else strFindAux needle cs (acc + c.utf8Size)

def strFind (hay needle : List Char) : Option Nat :=
  strFindAux needle hay 0

/-- Rust `str::rfind` for a literal pattern: byte offset of the last
occurrence of `needle`. -/
def strRFindAux (needle : List Char) : List Char → Nat → Option Nat → Option Nat
  | [], acc, best => if needle.isEmpty then some acc else best
  | c :: cs, acc, best =>
    strRFindAux needle cs (acc + c.utf8Size)
      (if needle.isPrefixOf (c :: cs) then some acc else best)

def strRFind (hay needle : List Char) : Option Nat :=
  strRFindAux needle hay 0 none

/-- Search direction (src/main.rs:79-83). -/
inductive Direction
  | next
  | prev
deriving DecidableEq

/-- Tags for the modal views of the navigation state machine. -/
inductive ViewTag
  | page
  | toc
  | search
  | help
  | markSet
  | markJump
  | meta
deriving DecidableEq

/-- The key codes the embedded handlers dispatch on. -/
inductive Key
  | esc
  | enter
  | backspace
  | char (c : Char)
  | other
deriving DecidableEq

structure SearchArgs where
  dir : Direction
  skip : Bool

/-- The per-chapter data consulted by navigation and search. -/
structure SChapter where
  text : List Char
  lines : List (Nat × Nat)
deriving DecidableEq

/-- The session state `Bk` (src/main.rs:443-460): position, mark table,
terminal geometry, view tag, search direction and live query.  The mark
table is an association list with insert-at-front, giving the same
lookup semantics as the source's `HashMap`. -/
structure BkSt where
  chapters : List SChapter
  chapter : Nat
  line : Nat
  mark : List (Char × (Nat × Nat))
  cols : Nat
  rows : Nat
  maxWidth : Nat
  view : ViewTag
  dir : Direction
  query : List Char
deriving DecidableEq

def chap (bk : BkSt) : SChapter :=
  bk.chapters.getD bk.chapter ⟨[], []⟩

/-- The reserved previous-position mark key, the apostrophe. -/
def markKey : Char := Char.ofNat 39

/-- `Bk::mark` (src/main.rs:554-556). -/
def bkMark (bk : BkSt) (c : Char) : BkSt :=
  { bk with mark := (c, (bk.chapter, bk.line)) :: bk.mark }

/-- `Bk::jump` (src/main.rs:557-564): if `c` is bound, move to the bound
position and record the pre-jump position under the reserved mark. -/
def bkJump (bk : BkSt) (c : Char) : BkSt :=
  match List.lookup c bk.mark with
  | some pos =>
    { bk with
        chapter := pos.1
        line := pos.2
        mark := (markKey, (bk.chapter, bk.line)) :: bk.mark }
  | none => bk

/-- `Jump::run` (src/main.rs:104-115): a character key attempts the mark
jump, anything else does nothing; either way the view returns to `Page`. -/
def jumpViewOnKey (bk : BkSt) (kc : Key) : BkSt :=
  let b1 := match kc with
    | .char c => bkJump bk c
    | _ => bk
  { b1 with view := ViewTag.page }

/-- `Bk::jump_reset` (src/main.rs:565-569): restore position from the
reserved mark.  The source `unwrap`s; a missing mark is modelled as
`none` (panic). -/
def jumpReset (bk : BkSt) : Option BkSt :=
  match List.lookup markKey bk.mark with
  | some pos => some { bk with chapter := pos.1, line := pos.2 }
  | none => none

/-- One candidate pass of the cross-chapter scan (the `for` loop of
`Search::search`, src/view.rs:432-438 and 447-453): try each `(chapter,
byte)` candidate in order; on the first hit set `line` via `get_line` and
`chapter`, backward candidates use `rfind` on the prefix. -/
def searchCands (chs : List SChapter) (q : List Char) (bwd : Bool) :
    List (Nat × Nat) → Option (Nat × Nat)
  | [] => none
  | (c, byte) :: rest =>
    let ch := chs.getD c ⟨[], []⟩
    match (if bwd then strRFind (takeB byte ch.text) q
           else (strFind (dropB byte ch.text) q).map (· + byte)) with
    | some idx => some (c, getLine ch.lines idx)
    | none => searchCands chs q bwd rest

def dirIsPrev : Direction → Bool
  | .prev => true
  | .next => false

/-- The `(chapter, startByte)` candidates of one search invocation: the
current chapter from the computed byte within the current line, then —
forward — chapters `chapter+1 .. chapters.len()-1` from byte 0 (note the
exclusive `len()-1` bound from the source), or — backward — chapters
`chapter-1 .. 0` from their end. -/
def searchCandList (bk : BkSt) (args : SearchArgs) : List (Nat × Nat) :=
  let se := (chap bk).lines.getD bk.line (0, 0)
  match args.dir with
  | .next =>
    let byte := if args.skip then se.2 else se.1
    (bk.chapter, byte) ::
      (List.range' (bk.chapter + 1)
        (bk.chapters.length - 1 - (bk.chapter + 1))).map (fun n => (n, 0))
  | .prev =>
    let byte := if args.skip then se.1 else se.2
    (bk.chapter, byte) ::
      (List.range bk.chapter).reverse.map
        (fun c => (c, byteLen (bk.chapters.getD c ⟨[], []⟩).text))

/-- `Search::search` (src/view.rs:425-457) = `Bk::search`
(src/main.rs:606-644): scan the candidates in order; the first match
moves the position and returns `true`, otherwise the state is returned
unchanged with `false`. -/
def bkSearch (bk : BkSt) (args : SearchArgs) : Bool × BkSt :=
  match searchCands bk.chapters bk.query (dirIsPrev args.dir)
      (searchCandList bk args) with
  | some cl => (true, { bk with chapter := cl.1, line := cl.2 })
  | none => (false, bk)

/-- `Search::on_key` (src/view.rs:460-492): Esc restores the mark, clears
the query and returns to Page; Enter returns to Page; Backspace pops the
query, restores the mark, then re-searches; a character appends to the
query, searches, and restores the mark on failure.  `none` models the
`unwrap` panic of a missing reserved mark. -/
def searchOnKey (bk : BkSt) (kc : Key) : Option BkSt :=
  match kc with
  | .esc => (jumpReset bk).map fun b => { b with query := [], view := ViewTag.page }
  | .enter => some { bk with view := ViewTag.page }
  | .backspace =>
    let b1 := { bk with query := bk.query.dropLast }
    match jumpReset b1 with
    | some b2 => some (bkSearch b2 ⟨bk.dir, false⟩).2
    | none => none
  | .char c =>
    let b1 := { bk with query := bk.query ++ [c] }
    let r := bkSearch b1 ⟨bk.dir, false⟩
    if r.1 then some r.2 else jumpReset r.2
  | .other => some bk

/-- `Page::on_resize` (src/view.rs:330-333): clamp the current line to the
(re-wrapped) chapter's line count. -/
def pageOnResize (bk : BkSt) : BkSt :=
  { bk with line := min bk.line ((chap bk).lines.length - 1) }

/-- Modelled from the spec: the dispatch glue of §4.8 that, after the run
loop's resize bookkeeping (src/main.rs:534-548: store the new row count
and, when the column count changed, re-wrap every chapter at
`min(cols, max_width)`), invokes the active view's `on_resize`, here
`Page::on_resize` (src/view.rs:330-333).  Only that dispatch is missing
from src/; both component behaviors are taken from the source. -/
def onResizeEvent (bk : BkSt) (cols rows : Nat) : BkSt :=
  let b1 := { bk with rows := rows }
  let b2 :=
    if cols ≠ b1.cols then
      { b1 with
          cols := cols
          chapters := b1.chapters.map (fun ch =>
            { ch with lines := wrap ch.text (min cols b1.maxWidth) }) }
    else b1
  pageOnResize b2

theorem getD_mem {α : Type} (l : List α) (i : Nat) (d : α) (h : i < l.length) :
    l.getD i d ∈ l := by
  induction l generalizing i with
  | nil => simp at h
  | cons x xs ih =>
    cases i with
    | zero => simp [List.getD_cons_zero]
    | succ i =>
      simp only [List.getD_cons_succ]
      exact List.mem_cons_of_mem x (ih i (by simpa using h))

theorem getD_map_lt {α β : Type} (f : α → β) (l : List α) (i : Nat) (d : α)
    (d2 : β) (h : i < l.length) :
    (l.map f).getD i d2 = f (l.getD i d) := by
  induction l generalizing i with
  | nil => simp at h
  | cons x xs ih =>
    cases i with
    | zero => simp [List.getD_cons_zero]
    | succ i =>
      simp only [List.map_cons, List.getD_cons_succ]
      exact ih i (by simpa using h)

/-- A failed search changes nothing (src/view.rs:425-457: `line` and
`chapter` are only assigned immediately before `return true`). -/
theorem bkSearch_false (b : BkSt) (args : SearchArgs) (out : BkSt)
    (h : bkSearch b args = (false, out)) : out = b := by
  unfold bkSearch at h
  cases hsc : searchCands b.chapters b.query (dirIsPrev args.dir)
      (searchCandList b args) with
  | some cl =>
    rw [hsc] at h
    exact absurd (congrArg Prod.fst h) (by simp)
  | none =>
    rw [hsc] at h
    have := congrArg Prod.snd h
    simpa using this.symm

theorem bkSearch_fst_false (b : BkSt) (args : SearchArgs)
    (h : (bkSearch b args).1 = false) : bkSearch b args = (false, b) := by
  unfold bkSearch at h ⊢
  cases hsc : searchCands b.chapters b.query (dirIsPrev args.dir)
      (searchCandList b args) with
  | some cl =>
    rw [hsc] at h
    simp at h
  | none =>
    rfl

/-- C4: an incremental search step (character appended, or backspace then
re-search) that finds no match restores the Position to the pre-search
reserved mark and modifies nothing else but the query; and the search
routine itself returns the state unchanged whenever it reports `false`. -/
theorem c4_search_failure_restores (bk : BkSt) (c : Char) (mc ml : Nat)
    (hm : List.lookup markKey bk.mark = some (mc, ml)) :
    ((bkSearch { bk with query := bk.query ++ [c] } ⟨bk.dir, false⟩).1 = false →
      searchOnKey bk (.char c) =
        some { bk with query := bk.query ++ [c], chapter := mc, line := ml }) ∧
    ((bkSearch { bk with query := bk.query.dropLast, chapter := mc, line := ml }
        ⟨bk.dir, false⟩).1 = false →
      searchOnKey bk .backspace =
        some { bk with query := bk.query.dropLast, chapter := mc, line := ml }) ∧
    (∀ (b : BkSt) (args : SearchArgs) (out : BkSt),
      bkSearch b args = (false, out) → out = b) := by
  refine ⟨?_, ?_, fun b args out h => bkSearch_false b args out h⟩
  · intro hfail
    have hpair := bkSearch_fst_false { bk with query := bk.query ++ [c] }
      ⟨bk.dir, false⟩ hfail
    simp only [searchOnKey]
    rw [hpair]
    simp [jumpReset, hm]
  · intro hfail
    have hpair := bkSearch_fst_false
      { bk with query := bk.query.dropLast, chapter := mc, line := ml }
      ⟨bk.dir, false⟩ hfail
    simp only [searchOnKey, jumpReset, hm]
    rw [hpair]

/-- A three-chapter book whose query appears only in the last chapter:
the C3 failing input. -/
def c3Book : BkSt :=
  { chapters := [⟨"aa\n".data, wrap ("aa\n".data) 10⟩,
                 ⟨"bb\n".data, wrap ("bb\n".data) 10⟩,
                 ⟨"zz\n".data, wrap ("zz\n".data) 10⟩]
    chapter := 0
    line := 0
    mark := []
    cols := 80
    rows := 5
    maxWidth := 10
    view := ViewTag.page
    dir := Direction.next
    query := "zz".data }

/-- C3 failing input: on a three-chapter book with the query `"zz"`
present only in the last chapter (from byte 0), a forward search from
chapter 0 returns `false` and leaves the position unchanged — the scan
`chapter+1 .. chapters.len()-1` never reaches the last chapter, although
the claim requires the scan to include it and the Position to move
there. -/
theorem c3_forward_search_misses_last_chapter :
    bkSearch c3Book ⟨Direction.next, false⟩ = (false, c3Book) ∧
    strFind (c3Book.chapters.getD 2 ⟨[], []⟩).text c3Book.query = some 0 ∧
    searchCandList c3Book ⟨Direction.next, false⟩ = [(0, 0), (1, 0)] := by
  refine ⟨?_, ?_, ?_⟩ <;> decide

/-- The concrete session used by several witnesses: one chapter, the
reserved mark bound to `(0, 0)`, live query `"q"`. -/
def wBk : BkSt :=
  { chapters := [⟨"ab\n".data, wrap ("ab\n".data) 5⟩]
    chapter := 0
    line := 0
    mark := [(markKey, (0, 0))]
    cols := 5
    rows := 3
    maxWidth := 5
    view := ViewTag.search
    dir := Direction.next
    query := "q".data }

theorem c4_witness :
    searchOnKey wBk (Key.char 'z') =
      some { wBk with query := "qz".data, chapter := 0, line := 0 } :=
  (c4_search_failure_restores wBk 'z' 0 0 (by decide)).1 (by decide)

/-- C7: a resize event leaves every chapter's line table equal to the
re-wrap of its text at the new column width `min(cols, max_width)` (the
unchanged-width branch skips the recomputation but preserves the same
equation), and clamps the current line strictly below the current
chapter's new line count. -/
theorem pageOnResize_lt (b : BkSt) (h : 0 < (chap b).lines.length) :
    (pageOnResize b).line < (chap (pageOnResize b)).lines.length := by
  have hc : chap (pageOnResize b) = chap b := rfl
  rw [hc]
  show min b.line ((chap b).lines.length - 1) < (chap b).lines.length
  omega

theorem c7_resize_rewraps_and_clamps (bk : BkSt) (cols rows : Nat)
    (hch : bk.chapter < bk.chapters.length)
    (hinv : ∀ ch ∈ bk.chapters, ch.lines = wrap ch.text (min bk.cols bk.maxWidth))
    (hne : wrap (chap bk).text (min cols bk.maxWidth) ≠ []) :
    (∀ ch ∈ (onResizeEvent bk cols rows).chapters,
      ch.lines = wrap ch.text (min cols bk.maxWidth)) ∧
    (onResizeEvent bk cols rows).line <
      (chap (onResizeEvent bk cols rows)).lines.length := by
  by_cases hc : cols ≠ bk.cols
  · have hres : onResizeEvent bk cols rows =
        pageOnResize { bk with
          rows := rows
          cols := cols
          chapters := bk.chapters.map (fun ch =>
            { ch with lines := wrap ch.text (min cols bk.maxWidth) }) } := by
      simp only [onResizeEvent]
      rw [if_pos hc]
    rw [hres]
    have hchap : chap { bk with
        rows := rows
        cols := cols
        chapters := bk.chapters.map (fun ch =>
          { ch with lines := wrap ch.text (min cols bk.maxWidth) }) } =
        (⟨(chap bk).text, wrap (chap bk).text (min cols bk.maxWidth)⟩ : SChapter) := by
      show (bk.chapters.map (fun ch =>
          { ch with lines := wrap ch.text (min cols bk.maxWidth) })).getD
          bk.chapter ⟨[], []⟩ =
        (⟨(chap bk).text, wrap (chap bk).text (min cols bk.maxWidth)⟩ : SChapter)
      exact getD_map_lt (fun ch =>
        { ch with lines := wrap ch.text (min cols bk.maxWidth) })
        bk.chapters bk.chapter ⟨[], []⟩ ⟨[], []⟩ hch
    constructor
    · intro ch hmem
      obtain ⟨ch0, _, hfe⟩ := List.mem_map.mp hmem
      rw [← hfe]
    · apply pageOnResize_lt
      rw [hchap]
      exact List.length_pos.mpr hne
  · have hcols : cols = bk.cols := by omega
    have hres : onResizeEvent bk cols rows =
        pageOnResize { bk with rows := rows } := by
      simp only [onResizeEvent]
      rw [if_neg hc]
    rw [hres]
    have hmem : chap bk ∈ bk.chapters := getD_mem bk.chapters bk.chapter ⟨[], []⟩ hch
    have hcur : (chap bk).lines = wrap (chap bk).text (min cols bk.maxWidth) := by
      rw [hcols]
      exact hinv (chap bk) hmem
    constructor
    · intro ch hmem2
      have hm2 : ch ∈ bk.chapters := hmem2
      rw [hcols]
      exact hinv ch hm2
    · apply pageOnResize_lt
      show 0 < (chap bk).lines.length
      rw [hcur]
      exact List.length_pos.mpr hne

theorem c7_witness :
    (∀ ch ∈ (onResizeEvent { wBk with line := 7 } 9 2).chapters,
      ch.lines = wrap ch.text (min 9 { wBk with line := 7 }.maxWidth)) ∧
    (onResizeEvent { wBk with line := 7 } 9 2).line <
      (chap (onResizeEvent { wBk with line := 7 } 9 2)).lines.length :=
  c7_resize_rewraps_and_clamps { wBk with line := 7 } 9 2
    (by decide) (by decide) (by decide)

/-- C10: a character key that has no binding in the mark table leaves the
Position, the whole mark table (reserved previous-position mark included)
and every other session field unchanged; the only effect of the mark-jump
view's key handler is returning the view to `Page`. -/
theorem c10_jump_unbound (bk : BkSt) (c : Char)
    (h : List.lookup c bk.mark = none) :
    jumpViewOnKey bk (.char c) = { bk with view := ViewTag.page } := by
  simp [jumpViewOnKey, bkJump, h]

theorem c10_witness :
    jumpViewOnKey wBk (Key.char 'a') = { wBk with view := ViewTag.page } :=
  c10_jump_unbound wBk 'a' (by decide)

end BK
